import Mathlib

/-
  Shallow embedding of the LRU-IPV cache replacement policy from
  src/CacheReplacementPolicy/lru_ipv.cc (class ReplacementPolicy::LRUIPVRP).

  The per-set Recency Stack is a `List Nat` of length `numWays`, indexed by
  way position; `stack[i]` is the rank of way `i`.  The C++ mutating methods
  `touch`, `reset` and `invalidate` each run a do-while loop with `i` going
  from `numWays - 1` down to `0`, and each iteration reads and writes only
  `stack->at(i)`; on a stack of length `numWays` the loop is therefore the
  pointwise map over all entries, which is how it is embedded here.
-/

namespace LruIpv

/-- The fixed 17-entry promotion vector copied from the IPV paper, set in the
constructor `LRUIPVRP::LRUIPVRP`:
`promotionVector = {0,0,1,0,3,0,1,2,1,0,5,1,0,0,1,11,13}`. -/
def promotionVector : List Nat := [0, 0, 1, 0, 3, 0, 1, 2, 1, 0, 5, 1, 0, 0, 1, 11, 13]

/-- Table lookup `promotionVector[r]`.  In C++ this is an unchecked
`std::vector` index; every in-program lookup uses `r ≤ 16`, where the
default value of `getD` is never reached. -/
def promo (r : Nat) : Nat := promotionVector.getD r 0

/-- The clamp `if (v >= numWays) v = numWays - 1;` applied to the target rank
in `touch`, `reset` and `invalidate`, and to each entry read in the loops of
`touch` and `reset`. -/
def clampRank (numWays v : Nat) : Nat := if v ≥ numWays then numWays - 1 else v

/-- One loop iteration of `LRUIPVRP::touch` (and of `LRUIPVRP::reset`, whose
loop body is identical), acting on the entry `c = stack->at(i)`:

    if (c >= numWays) c = numWays - 1;          // clamped local copy
    if (c == target)  stack->at(i) = newVal;
    else if (c >= newVal && c < target) stack->at(i) = ++c;

The else-branch leaves the stored entry unchanged (the clamp only affects the
local copy). -/
def touchEntry (numWays target newVal c : Nat) : Nat :=
  let cc := clampRank numWays c
  if cc = target then newVal
  else if newVal ≤ cc ∧ cc < target then cc + 1
  else c

/-- `LRUIPVRP::touch`: read `target = stack->at(index)`, clamp it to
`numWays - 1`, look up `newVal = promotionVector[target]`, then rewrite every
entry with the loop body `touchEntry`. -/
def touch (numWays : Nat) (stack : List Nat) (index : Nat) : List Nat :=
  let target := clampRank numWays (stack.getD index 0)
  stack.map (touchEntry numWays target (promo target))

/-- `LRUIPVRP::reset`: identical to `touch` except that the new rank is the
fixed lookup `promotionVector[16]` (the macro `INVALID_RECENCY_VALUE` is 16),
independent of the way's current rank. -/
def reset (numWays : Nat) (stack : List Nat) (index : Nat) : List Nat :=
  let target := clampRank numWays (stack.getD index 0)
  stack.map (touchEntry numWays target (promo 16))

/-- One loop iteration of `LRUIPVRP::invalidate`, acting on the entry
`c = stack->at(i)` (here the entry is NOT clamped; `newVal` is `numWays`):

    if (c == target) stack->at(i) = numWays;
    else if (c > target && c <= numWays) stack->at(i) = c - 1; -/
def invalidateEntry (numWays target c : Nat) : Nat :=
  if c = target then numWays
  else if target < c ∧ c ≤ numWays then c - 1
  else c

/-- `LRUIPVRP::invalidate`: read `target = stack->at(index)`, clamp it to
`numWays - 1`, then rewrite every entry with the loop body
`invalidateEntry`. -/
def invalidate (numWays : Nat) (stack : List Nat) (index : Nat) : List Nat :=
  let target := clampRank numWays (stack.getD index 0)
  stack.map (invalidateEntry numWays target)

/-- `LRUIPVRP::LRUIPVReplData`: the per-way replacement state, holding the
set id, the way's fixed position (`index`) into the shared Recency Stack, and
the stack contents themselves. -/
structure LRUIPVReplData where
  set_id : Nat
  index : Nat
  stack : List Nat
deriving DecidableEq

/-- The rank the candidate's own position holds in its shared stack:
`candidate_stack_ptr->at(candidate_index)` in `LRUIPVRP::getVictim`. -/
def candidateRank (d : LRUIPVReplData) : Nat := d.stack.getD d.index 0

/-- `LRUIPVRP::getVictim`: `assert(candidates.size() > 0)` (embedded as
`none` on the empty list); `victim` starts as `candidates[0]`, then the loop
over ALL candidates (the first one included) overwrites `victim` with every
candidate whose rank is `>= numWays - 1`, so the last such candidate wins. -/
def getVictim (numWays : Nat) (candidates : List LRUIPVReplData) :
    Option LRUIPVReplData :=
  match candidates with
  | [] => none
  | c0 :: rest =>
      some ((c0 :: rest).foldl
        (fun victim c => if numWays - 1 ≤ candidateRank c then c else victim) c0)

/-- State-threaded view of `LRUIPVRP::getVictim`: the method is `const`, takes
the candidate list by const reference and contains no store to any candidate's
replacement data or to any stack, so the faithful state-passing embedding
returns the candidate list unchanged next to the chosen victim. -/
def getVictimSt (numWays : Nat) (candidates : List LRUIPVReplData) :
    Option LRUIPVReplData × List LRUIPVReplData :=
  (getVictim numWays candidates, candidates)

/-- gem5's `isPowerOf2` from base/intmath.hh, used (only) inside the
constructor's debug message: `n != 0 && !(n & (n - 1))`. -/
def isPowerOf2 (n : Nat) : Bool := n != 0 && (n &&& (n - 1)) == 0

/-- `LRUIPVRP::LRUIPVRP(const Params &p)`: stores `numWays`, zeroes the
instance counter, emits one `DPRINTF` debug message (which mentions
`!isPowerOf2(numWays)` but aborts nothing), and copies the promotion vector.
The body has no failure path, so construction always returns a live policy;
`none` would model a fatal abort, and is never produced. -/
def constructLRUIPVRP (numWays : Nat) : Option (Nat × List Nat) :=
  some (numWays, promotionVector)

/-- `LRUIPVRP::instantiateEntry` initializes each fresh per-set stack with
`std::iota(begin, end, 0)`: the identity permutation `[0, ..., numWays-1]`. -/
def initStack (numWays : Nat) : List Nat := List.range numWays

/-- A hit (`touch`) or fill (`reset`) event on the way at the given position. -/
inductive AccessOp where
  | touchOp (index : Nat)
  | resetOp (index : Nat)
deriving DecidableEq

/-- Apply one access event to a stack. -/
def applyOp (numWays : Nat) (stack : List Nat) : AccessOp → List Nat
  | .touchOp i => touch numWays stack i
  | .resetOp i => reset numWays stack i

/-- Run a sequence of touch/reset events from the identity-initialized
stack. -/
def applySeq (numWays : Nat) (ops : List AccessOp) : List Nat :=
  ops.foldl (applyOp numWays) (initStack numWays)

-- sanity checks (spec scenarios)
example : touch 4 [0, 1, 2, 3] 2 = [0, 2, 1, 3] := by decide
example : invalidate 4 [0, 1, 2, 3] 1 = [0, 4, 1, 2] := by decide
example : reset 4 [0, 1, 2, 3] 0 = [13, 1, 2, 3] := by decide
example : applySeq 4 [AccessOp.resetOp 0] = [13, 1, 2, 3] := by decide

/-! ## Helper lemmas -/

/-- A duplicate-free list of length `W` whose elements all lie below `W` is a
permutation of `List.range W`. -/
lemma perm_range_of {l : List Nat} {W : Nat} (hnd : l.Nodup)
    (hlen : l.length = W) (hlt : ∀ x ∈ l, x < W) : l.Perm (List.range W) := by
  have hsub : l ⊆ List.range W := fun x hx => List.mem_range.mpr (hlt x hx)
  have hsp : l.Subperm (List.range W) := List.subperm_of_subset hnd hsub
  exact hsp.perm_of_length_le (by rw [hlen, List.length_range])

lemma clampRank_lt {W : Nat} (hW : 0 < W) (v : Nat) : clampRank W v < W := by
  unfold clampRank; split <;> omega

lemma clampRank_of_lt {W v : Nat} (h : v < W) : clampRank W v = v := by
  unfold clampRank; split <;> omega

/-- Every entry of the promotion vector at index `r ≤ 16` is at most `r`:
the table always promotes toward the MRU side. -/
lemma promo_le_self {r : Nat} (h : r ≤ 16) : promo r ≤ r := by
  have hall : ∀ x ∈ List.range 17, promo x ≤ x := by decide
  exact hall r (List.mem_range.mpr (by omega))

lemma touchEntry_eq_of_lt {W c : Nat} (target newVal : Nat) (hc : c < W) :
    touchEntry W target newVal c =
      if c = target then newVal
      else if newVal ≤ c ∧ c < target then c + 1
      else c := by
  unfold touchEntry
  rw [clampRank_of_lt hc]

lemma touchEntry_injOn {W target n : Nat} (htn : n ≤ target) (htW : target < W) :
    ∀ c₁ ∈ List.range W, ∀ c₂ ∈ List.range W,
      touchEntry W target n c₁ = touchEntry W target n c₂ → c₁ = c₂ := by
  intro c₁ h₁ c₂ h₂ heq
  rw [List.mem_range] at h₁ h₂
  rw [touchEntry_eq_of_lt target n h₁, touchEntry_eq_of_lt target n h₂] at heq
  split_ifs at heq <;> omega

lemma touchEntry_lt {W target n c : Nat} (htn : n ≤ target) (htW : target < W)
    (hc : c < W) : touchEntry W target n c < W := by
  rw [touchEntry_eq_of_lt target n hc]
  split_ifs <;> omega

/-- A single `touch` at any position preserves the permutation invariant
(for any configured `numWays ≤ 16`, so that the promotion-vector lookup is in
bounds). -/
lemma touch_perm {W : Nat} (hW : 0 < W) (hW16 : W ≤ 16) (stack : List Nat)
    (pos : Nat) (hperm : stack.Perm (List.range W)) :
    (touch W stack pos).Perm (List.range W) := by
  unfold touch
  have htW : clampRank W (stack.getD pos 0) < W := clampRank_lt hW _
  have htn : promo (clampRank W (stack.getD pos 0)) ≤ clampRank W (stack.getD pos 0) :=
    promo_le_self (by omega)
  refine (hperm.map _).trans (perm_range_of ?_ ?_ ?_)
  · exact List.Nodup.map_on (touchEntry_injOn htn htW) (List.nodup_range W)
  · simp
  · intro x hx
    obtain ⟨c, hc, rfl⟩ := List.mem_map.mp hx
    exact touchEntry_lt htn htW (List.mem_range.mp hc)

lemma touch_foldl_perm {W : Nat} (hW : 0 < W) (hW16 : W ≤ 16) :
    ∀ (ops : List Nat) (stack : List Nat), stack.Perm (List.range W) →
      (ops.foldl (touch W) stack).Perm (List.range W) := by
  intro ops
  induction ops with
  | nil => intro stack h; exact h
  | cons p ps ih =>
      intro stack h
      exact ih (touch W stack p) (touch_perm hW hW16 stack p h)

/-! ## C1 -/

/-- C1, counterexample: the claimed permutation invariant over touch/reset
sequences fails on the code.  With `numWays = 4`, a single `reset` on way 0
from the identity stack writes `promotionVector[16] = 13` and yields
`[13, 1, 2, 3]`, which is not a permutation of `{0, 1, 2, 3}`. -/
theorem C1_reset_breaks_permutation :
    applySeq 4 [AccessOp.resetOp 0] = [13, 1, 2, 3] ∧
      ¬ ([13, 1, 2, 3] : List Nat).Perm (List.range 4) := by
  constructor
  · decide
  · intro h
    have h13 : (13 : Nat) ∈ List.range 4 := h.subset (by decide)
    exact absurd h13 (by decide)

/-- C1, amended: after any sequence of `touch` calls alone (no `reset`, no
`invalidate`) on valid way positions, starting from the identity-initialized
Recency Stack, the stack is exactly a permutation of `{0, ..., W-1}`, for any
configured number of ways `1 ≤ W ≤ 16`.  (`reset` can break the invariant, as
`C1_reset_breaks_permutation` shows.) -/
theorem C1_touch_sequences_perm (W : Nat) (ops : List Nat) (hW : 0 < W)
    (hW16 : W ≤ 16) (hops : ∀ i ∈ ops, i < W) :
    (applySeq W (ops.map AccessOp.touchOp)).Perm (List.range W) := by
  have hfold : applySeq W (ops.map AccessOp.touchOp)
      = ops.foldl (touch W) (initStack W) := by
    rw [applySeq, List.foldl_map]
    rfl
  rw [hfold]
  exact touch_foldl_perm hW hW16 ops (initStack W) (List.Perm.refl _)

/-- C1, witness for the amended theorem at `W = 4`, `ops = [2, 1]`. -/
theorem C1_touch_sequences_perm_witness :
    0 < 4 ∧ 4 ≤ 16 ∧ (∀ i ∈ [2, 1], i < 4) ∧
      (applySeq 4 ([2, 1].map AccessOp.touchOp)).Perm (List.range 4) :=
  ⟨by decide, by decide, by decide,
    C1_touch_sequences_perm 4 [2, 1] (by decide) (by decide) (by decide)⟩

/-! ## C2 -/

/-- C2, counterexample: with `numWays = 4`, `reset` on way 0 of the identity
stack assigns the filled way rank `promotionVector[16] = 13`, not
`promotionVector[numWays] = promotionVector[4] = 3` as the claim states. -/
theorem C2_reset_rank_not_promo_numWays :
    ¬ ((reset 4 [0, 1, 2, 3] 0).getD 0 0 = promotionVector.getD 4 0) := by
  decide

lemma touchEntry_self (W n c : Nat) : touchEntry W (clampRank W c) n c = n := by
  unfold touchEntry
  simp

/-- C2, amended: `reset` assigns the filled way the fixed rank
`promotionVector[16]` (the last entry of the 17-entry table, value 13),
independent of the way's current rank; this coincides with `promo[numWays]`
only in the `numWays = 16` configuration. -/
theorem C2_reset_new_rank (W : Nat) (stack : List Nat) (pos : Nat)
    (hpos : pos < stack.length) :
    (reset W stack pos).getD pos 0 = promotionVector.getD 16 0 := by
  unfold reset
  have hgd : stack.getD pos 0 = stack[pos] := List.getD_eq_getElem _ _ hpos
  rw [List.getD_eq_getElem _ _ (by simpa using hpos), List.getElem_map, ← hgd]
  exact touchEntry_self W (promo 16) (stack.getD pos 0)

/-- C2, witness for the amended theorem at `W = 4`, stack `[0,1,2,3]`,
position 1. -/
theorem C2_reset_new_rank_witness :
    1 < ([0, 1, 2, 3] : List Nat).length ∧
      (reset 4 [0, 1, 2, 3] 1).getD 1 0 = promotionVector.getD 16 0 :=
  ⟨by decide, C2_reset_new_rank 4 [0, 1, 2, 3] 1 (by decide)⟩

/-! ## C4 -/

/-- C4: on a stack satisfying the permutation invariant, `touch` on the way
at position `pos` with current rank `r = stack[pos]` and promoted rank
`n = promo r` maps every entry equal to `r` to `n`, increments every entry in
`[n, r)` by one, and leaves every other entry unchanged. -/
theorem C4_touch_rewrite (W : Nat) (stack : List Nat) (pos : Nat)
    (hperm : stack.Perm (List.range W)) (hpos : pos < W) :
    touch W stack pos =
      stack.map (fun c =>
        if c = stack.getD pos 0 then promo (stack.getD pos 0)
        else if promo (stack.getD pos 0) ≤ c ∧ c < stack.getD pos 0 then c + 1
        else c) := by
  have hlen : stack.length = W := by simpa using hperm.length_eq
  have hmem : stack.getD pos 0 ∈ stack := by
    rw [List.getD_eq_getElem _ _ (show pos < stack.length by omega)]
    exact List.getElem_mem _
  have htlt : stack.getD pos 0 < W := List.mem_range.mp (hperm.subset hmem)
  unfold touch
  rw [clampRank_of_lt htlt]
  apply List.map_congr_left
  intro c hc
  have hclt : c < W := List.mem_range.mp (hperm.subset hc)
  rw [touchEntry_eq_of_lt _ _ hclt]

/-- C4, witness: `W = 4`, stack `[0,1,2,3]`, touching position 2 (rank 2,
promoted to rank `promo 2 = 1`) yields `[0,2,1,3]`. -/
theorem C4_touch_rewrite_witness :
    ([0, 1, 2, 3] : List Nat).Perm (List.range 4) ∧ 2 < 4 ∧
      touch 4 [0, 1, 2, 3] 2 = [0, 2, 1, 3] := by
  have hperm : ([0, 1, 2, 3] : List Nat).Perm (List.range 4) :=
    perm_range_of (by decide) (by decide) (by decide)
  refine ⟨hperm, by decide, ?_⟩
  rw [C4_touch_rewrite 4 [0, 1, 2, 3] 2 hperm (by decide)]
  decide

/-! ## C5 -/

/-- C5, counterexample: on the stack `[13, 1, 2, 3]` (reachable by a `reset`
at `numWays = 4`), invalidating position 1 (rank `r = 1`) does NOT decrement
the entry 13, because the code's decrement branch also requires
`entry ≤ numWays`; the claim's rewrite (decrement every entry `> r`) predicts
12 there, but the code leaves 13. -/
theorem C5_invalidate_not_claim_rewrite :
    ¬ (invalidate 4 [13, 1, 2, 3] 1 =
        [13, 1, 2, 3].map (fun c => if c = 1 then 4 else if 1 < c then c - 1 else c)) := by
  decide

/-- C5, amended: for every stack state all of whose entries are at most
`numWays`, `invalidate` on the way with (clamped) current rank `r` sets every
entry equal to `r` to the sentinel `numWays` and decrements every entry
strictly greater than `r` by one (entries above `numWays`, which arise only
from `reset`'s out-of-range insertion rank, are instead left unchanged). -/
theorem C5_invalidate_rewrite (W : Nat) (stack : List Nat) (pos : Nat)
    (hall : ∀ c ∈ stack, c ≤ W) :
    invalidate W stack pos =
      stack.map (fun c =>
        if c = clampRank W (stack.getD pos 0) then W
        else if clampRank W (stack.getD pos 0) < c then c - 1
        else c) := by
  unfold invalidate
  apply List.map_congr_left
  intro c hc
  have hcW := hall c hc
  unfold invalidateEntry
  split_ifs <;> omega

/-- C5, witness: `W = 4`, stack `[0,1,2,3]`, invalidating position 1 yields
`[0, 4, 1, 2]` (position 1 gets the sentinel 4; ranks 2 and 3 shift down). -/
theorem C5_invalidate_rewrite_witness :
    (∀ c ∈ ([0, 1, 2, 3] : List Nat), c ≤ 4) ∧
      invalidate 4 [0, 1, 2, 3] 1 = [0, 4, 1, 2] := by
  have hall : ∀ c ∈ ([0, 1, 2, 3] : List Nat), c ≤ 4 := by decide
  refine ⟨hall, ?_⟩
  rw [C5_invalidate_rewrite 4 [0, 1, 2, 3] 1 hall]
  decide

/-! ## C6 -/

lemma invalidateEntry_injOn {W target : Nat} (htW : target < W) :
    ∀ c₁ ∈ List.range W, ∀ c₂ ∈ List.range W,
      invalidateEntry W target c₁ = invalidateEntry W target c₂ → c₁ = c₂ := by
  intro c₁ h₁ c₂ h₂ heq
  rw [List.mem_range] at h₁ h₂
  unfold invalidateEntry at heq
  split_ifs at heq <;> omega

/-- C6: invalidating any way of a stack satisfying the permutation invariant
leaves a stack of length `W` in which the sentinel `W` occurs exactly once
and the remaining `W - 1` entries are pairwise distinct and all lie below
`W - 1`. -/
theorem C6_sentinel_unique (W : Nat) (stack : List Nat) (pos : Nat)
    (hperm : stack.Perm (List.range W)) (hpos : pos < W) :
    (invalidate W stack pos).length = W ∧
      (invalidate W stack pos).count W = 1 ∧
      ((invalidate W stack pos).filter (fun c => c != W)).Nodup ∧
      (∀ c ∈ invalidate W stack pos, c ≠ W → c < W - 1) := by
  have hlen : stack.length = W := by simpa using hperm.length_eq
  have hnd : stack.Nodup := hperm.nodup_iff.mpr (List.nodup_range W)
  have hlt : ∀ c ∈ stack, c < W := fun c hc => List.mem_range.mp (hperm.subset hc)
  have hmem : stack.getD pos 0 ∈ stack := by
    rw [List.getD_eq_getElem _ _ (show pos < stack.length by omega)]
    exact List.getElem_mem _
  have htlt : stack.getD pos 0 < W := List.mem_range.mp (hperm.subset hmem)
  have hclamp : clampRank W (stack.getD pos 0) = stack.getD pos 0 :=
    clampRank_of_lt htlt
  have hres : invalidate W stack pos
      = stack.map (invalidateEntry W (stack.getD pos 0)) := by
    unfold invalidate
    rw [hclamp]
  have hndres : (invalidate W stack pos).Nodup := by
    rw [hres]
    refine List.Nodup.map_on ?_ hnd
    intro c₁ h₁ c₂ h₂ heq
    exact invalidateEntry_injOn htlt c₁ (List.mem_range.mpr (hlt c₁ h₁))
      c₂ (List.mem_range.mpr (hlt c₂ h₂)) heq
  have hWmem : W ∈ invalidate W stack pos := by
    rw [hres]
    refine List.mem_map.mpr ⟨stack.getD pos 0, hmem, ?_⟩
    unfold invalidateEntry
    rw [if_pos rfl]
  refine ⟨?_, ?_, ?_, ?_⟩
  · rw [hres, List.length_map, hlen]
  · have h1 : (invalidate W stack pos).count W ≤ 1 :=
      List.nodup_iff_count_le_one.mp hndres W
    have h2 : 0 < (invalidate W stack pos).count W :=
      List.count_pos_iff.mpr hWmem
    omega
  · exact hndres.filter _
  · intro c hc hne
    rw [hres] at hc
    obtain ⟨c₀, hc₀, rfl⟩ := List.mem_map.mp hc
    have hc₀W : c₀ < W := hlt c₀ hc₀
    unfold invalidateEntry at hne ⊢
    split_ifs at hne ⊢ <;> omega

/-- C6, witness: `W = 4`, stack `[0,1,2,3]`, invalidating position 1. -/
theorem C6_sentinel_unique_witness :
    ([0, 1, 2, 3] : List Nat).Perm (List.range 4) ∧ 1 < 4 ∧
      (invalidate 4 [0, 1, 2, 3] 1).count 4 = 1 ∧
      (∀ c ∈ invalidate 4 [0, 1, 2, 3] 1, c ≠ 4 → c < 4 - 1) := by
  have hperm : ([0, 1, 2, 3] : List Nat).Perm (List.range 4) :=
    perm_range_of (by decide) (by decide) (by decide)
  obtain ⟨h₁, h₂, h₃, h₄⟩ := C6_sentinel_unique 4 [0, 1, 2, 3] 1 hperm (by decide)
  exact ⟨hperm, by decide, h₂, h₄⟩

/-! ## C3 -/

/-- C3, evaluation of the code at the failing input: the constructor body
has no abort path, so constructing the policy with the non-power-of-two
`numWays = 3` succeeds and keeps the value 3, even though gem5's
`isPowerOf2 3` is false; the only mention of the requirement is the debug
message.  This contradicts both the spec and the constructor's own message
text, so the claim is right and the code is wrong. -/
theorem C3_construct_never_aborts :
    constructLRUIPVRP 3 = some (3, promotionVector) ∧ isPowerOf2 3 = false := by
  constructor
  · rfl
  · decide

/-! ## Victim selection: shared lemmas -/

lemma foldl_pick_eq {α : Type} (P : α → Prop) [DecidablePred P] :
    ∀ (l : List α) (a : α),
      l.foldl (fun v c => if P c then c else v) a
        = ((l.filter (fun c => decide (P c))).getLast?).getD a := by
  intro l
  induction l with
  | nil => intro a; rfl
  | cons c l ih =>
      intro a
      rw [List.foldl_cons]
      by_cases hp : P c
      · rw [if_pos hp, ih c,
          List.filter_cons_of_pos (by simpa using hp)]
        cases hl : l.filter (fun c => decide (P c)) with
        | nil => rfl
        | cons d ds =>
            rw [List.getLast?_cons_cons,
              List.getLast?_eq_getLast_of_ne_nil (List.cons_ne_nil d ds)]
            rfl
      · rw [if_neg hp, ih a,
          List.filter_cons_of_neg (by simpa using hp)]

lemma foldl_pick_mem {α : Type} (P : α → Prop) [DecidablePred P] :
    ∀ (l : List α) (a : α),
      l.foldl (fun v c => if P c then c else v) a ∈ a :: l := by
  intro l
  induction l with
  | nil => intro a; exact List.mem_cons_self a []
  | cons c l ih =>
      intro a
      rw [List.foldl_cons]
      by_cases hp : P c
      · rw [if_pos hp]
        exact List.mem_cons.mpr (Or.inr (ih c))
      · rw [if_neg hp]
        rcases List.mem_cons.mp (ih a) with h | h
        · exact List.mem_cons.mpr (Or.inl h)
        · exact List.mem_cons.mpr (Or.inr (List.mem_cons.mpr (Or.inr h)))

/-- `getVictim` on a non-empty list is the last candidate passing the
`rank ≥ numWays - 1` test, defaulting to the first candidate. -/
lemma getVictim_cons_eq (W : Nat) (c0 : LRUIPVReplData)
    (rest : List LRUIPVReplData) :
    getVictim W (c0 :: rest)
      = some ((((c0 :: rest).filter
          (fun c => decide (W - 1 ≤ candidateRank c))).getLast?).getD c0) := by
  have h : getVictim W (c0 :: rest)
      = some ((c0 :: rest).foldl
          (fun victim c => if W - 1 ≤ candidateRank c then c else victim) c0) := rfl
  rw [h, foldl_pick_eq (fun c => W - 1 ≤ candidateRank c) (c0 :: rest) c0]

/-! ## C7 -/

/-- C7: whenever some candidate has rank at least `numWays - 1`, the victim
is the LAST such candidate in iteration order. -/
theorem C7_victim_is_last_high_rank (W : Nat) (cands : List LRUIPVReplData)
    (hW : 1 ≤ W) (hex : ∃ c ∈ cands, W - 1 ≤ candidateRank c) :
    getVictim W cands
      = (cands.filter (fun c => decide (W - 1 ≤ candidateRank c))).getLast? := by
  obtain ⟨cw, hcw, hrank⟩ := hex
  cases cands with
  | nil => cases hcw
  | cons c0 rest =>
      rw [getVictim_cons_eq]
      have hne : (c0 :: rest).filter (fun c => decide (W - 1 ≤ candidateRank c)) ≠ [] := by
        intro h
        have hmem : cw ∈ (c0 :: rest).filter (fun c => decide (W - 1 ≤ candidateRank c)) :=
          List.mem_filter.mpr ⟨hcw, by simpa using hrank⟩
        rw [h] at hmem
        cases hmem
      rw [List.getLast?_eq_getLast_of_ne_nil hne]
      rfl

/-- C7, witness: `W = 4`, all four ways of a set sharing the stack
`[2, 0, 3, 1]`; the only rank `≥ 3` is rank 3 at position 2, so the victim
is the way at position 2. -/
theorem C7_victim_is_last_high_rank_witness :
    1 ≤ 4 ∧
      (∃ c ∈ [(⟨0, 0, [2, 0, 3, 1]⟩ : LRUIPVReplData), ⟨0, 1, [2, 0, 3, 1]⟩,
          ⟨0, 2, [2, 0, 3, 1]⟩, ⟨0, 3, [2, 0, 3, 1]⟩], 4 - 1 ≤ candidateRank c) ∧
      getVictim 4 [⟨0, 0, [2, 0, 3, 1]⟩, ⟨0, 1, [2, 0, 3, 1]⟩,
          ⟨0, 2, [2, 0, 3, 1]⟩, ⟨0, 3, [2, 0, 3, 1]⟩]
        = some ⟨0, 2, [2, 0, 3, 1]⟩ := by
  have hex : ∃ c ∈ [(⟨0, 0, [2, 0, 3, 1]⟩ : LRUIPVReplData), ⟨0, 1, [2, 0, 3, 1]⟩,
      ⟨0, 2, [2, 0, 3, 1]⟩, ⟨0, 3, [2, 0, 3, 1]⟩], 4 - 1 ≤ candidateRank c :=
    ⟨⟨0, 2, [2, 0, 3, 1]⟩, by decide, by decide⟩
  refine ⟨by decide, hex, ?_⟩
  rw [C7_victim_is_last_high_rank 4 _ (by decide) hex]
  decide

/-! ## C8 -/

/-- C8: `getVictim` on the empty candidate list fails the
`assert(candidates.size() > 0)` (embedded as `none`), and on every non-empty
candidate list the assertion passes and some victim is returned. -/
theorem C8_empty_asserts_nonempty_returns (W : Nat) :
    getVictim W [] = none ∧
      ∀ (c0 : LRUIPVReplData) (rest : List LRUIPVReplData),
        ∃ v, getVictim W (c0 :: rest) = some v := by
  refine ⟨rfl, ?_⟩
  intro c0 rest
  exact ⟨_, rfl⟩

/-! ## C9 -/

/-- C9: the state-threaded `getVictim` returns the candidate list (and every
stack in it) unchanged, and the victim it reports is one of the input
candidates, returned as-is. -/
theorem C9_getVictim_no_mutation (W : Nat) (cands : List LRUIPVReplData) :
    (getVictimSt W cands).2 = cands ∧
      ∀ v, (getVictimSt W cands).1 = some v → v ∈ cands := by
  refine ⟨rfl, ?_⟩
  intro v hv
  cases cands with
  | nil => cases hv
  | cons c0 rest =>
      have hv' : (c0 :: rest).foldl
          (fun victim c => if W - 1 ≤ candidateRank c then c else victim) c0 = v :=
        Option.some.inj hv
      have hmem := foldl_pick_mem (fun c => W - 1 ≤ candidateRank c) (c0 :: rest) c0
      rw [hv'] at hmem
      rcases List.mem_cons.mp hmem with h | h
      · subst h
        exact List.mem_cons_self _ _
      · exact h

/-- C9, witness: `W = 2`, two ways sharing the stack `[1, 0]`; the list comes
back unchanged and the reported victim (the way at position 0, rank 1) is a
member of the input list. -/
theorem C9_getVictim_no_mutation_witness :
    (getVictimSt 2 [⟨0, 0, [1, 0]⟩, ⟨0, 1, [1, 0]⟩]).2
        = [(⟨0, 0, [1, 0]⟩ : LRUIPVReplData), ⟨0, 1, [1, 0]⟩] ∧
      (⟨0, 0, [1, 0]⟩ : LRUIPVReplData) ∈
        [(⟨0, 0, [1, 0]⟩ : LRUIPVReplData), ⟨0, 1, [1, 0]⟩] :=
  ⟨(C9_getVictim_no_mutation 2 _).1,
    (C9_getVictim_no_mutation 2 _).2 ⟨0, 0, [1, 0]⟩ (by decide)⟩

/-! ## C10 -/

/-- C10: when no candidate reaches rank `numWays - 1` (only possible when the
permutation invariant is broken), `getVictim` falls back to the first
candidate rather than failing. -/
theorem C10_no_high_rank_returns_first (W : Nat) (c0 : LRUIPVReplData)
    (rest : List LRUIPVReplData)
    (hall : ∀ c ∈ c0 :: rest, candidateRank c < W - 1) :
    getVictim W (c0 :: rest) = some c0 := by
  rw [getVictim_cons_eq]
  have hnil : (c0 :: rest).filter (fun c => decide (W - 1 ≤ candidateRank c)) = [] := by
    rw [List.filter_eq_nil_iff]
    intro c hc
    simpa using Nat.not_le.mpr (hall c hc)
  rw [hnil]
  rfl

/-- C10, witness: `W = 4`, four candidates sharing the broken stack
`[0, 1, 2, 0]` (all ranks below 3); the first candidate is returned. -/
theorem C10_no_high_rank_returns_first_witness :
    (∀ c ∈ [(⟨0, 0, [0, 1, 2, 0]⟩ : LRUIPVReplData), ⟨0, 1, [0, 1, 2, 0]⟩,
        ⟨0, 2, [0, 1, 2, 0]⟩, ⟨0, 3, [0, 1, 2, 0]⟩], candidateRank c < 4 - 1) ∧
      getVictim 4 [⟨0, 0, [0, 1, 2, 0]⟩, ⟨0, 1, [0, 1, 2, 0]⟩,
          ⟨0, 2, [0, 1, 2, 0]⟩, ⟨0, 3, [0, 1, 2, 0]⟩]
        = some ⟨0, 0, [0, 1, 2, 0]⟩ :=
  ⟨by decide, C10_no_high_rank_returns_first 4 _ _ (by decide)⟩

end LruIpv
